import Mathlib

/-!
Shallow embedding of `fetch_versions.py` (the `actions-latest` tool).

The tool enumerates repositories, fetches their tags page by page, selects
the latest version tag under three numeric tag conventions, and writes a
sorted manifest plus an "unversioned" cache file.  The definitions below are
translated directly from the Python source:

* `pyStrip`               — `str.strip()` (whitespace trimming);
* `matchVInt`/`matchInt`/`matchMajMin`
                          — the three regexes `^v(\d+)$`, `^(\d+)$`,
                            `^(\d+)\.(\d+)$` together with `int(...)` on the
                            captured groups (`\d` is modelled as the ASCII
                            digits `0`-`9`);
* `get_latest_version_tag` — the version selector (priority order and the
                            stable descending sorts of the source);
* `fetchRepos`/`fetchTags` — the two pagination loops, with the transport
                            modelled as the list of successive page payloads
                            (element `i` is the response to page `i+1`, each
                            requested with `per_page = 100`);
* `buildVersionsContent`/`unversionedContent`
                          — the manifest / cache writers (file contents);
* `runMain`               — the per-repository processing loop of `main`,
                            instrumented with the list of repositories for
                            which the tag fetcher was actually invoked.
-/

namespace FetchVersions

/-- The whitespace characters removed by Python `str.strip()` (ASCII range:
space, tab, newline, carriage return, vertical tab, form feed). -/
def isPySpace (c : Char) : Bool :=
  c = ' ' || c = '\t' || c = '\n' || c = '\r' || c = Char.ofNat 11 || c = Char.ofNat 12

/-- `tag.strip()`: remove leading and trailing whitespace. -/
def pyStrip (s : String) : String :=
  ⟨((s.data.dropWhile isPySpace).reverse.dropWhile isPySpace).reverse⟩

/-- `int(...)` applied to a captured digit string. -/
def digitsToNat (l : List Char) : Nat :=
  l.foldl (fun n c => 10 * n + (c.toNat - 48)) 0

/-- `re.compile(r"^v(\d+)$").match`: a lowercase `v` followed by one or more
digits and nothing else; returns `int(match.group(1))`. -/
def matchVInt (s : String) : Option Nat :=
  match s.data with
  | c :: ds =>
      if c = 'v' && !ds.isEmpty && ds.all Char.isDigit then some (digitsToNat ds)
      else none
  | [] => none

/-- `re.compile(r"^(\d+)$").match`: one or more digits and nothing else. -/
def matchInt (s : String) : Option Nat :=
  if !s.data.isEmpty && s.data.all Char.isDigit then some (digitsToNat s.data) else none

/-- `re.compile(r"^(\d+)\.(\d+)$").match`: digits, one dot, digits, nothing
else; returns `(int(group(1)), int(group(2)))`. -/
def matchMajMin (s : String) : Option (Nat × Nat) :=
  match s.data.takeWhile Char.isDigit, s.data.dropWhile Char.isDigit with
  | [], _ => none
  | a, c :: b =>
      if c = '.' && !b.isEmpty && b.all Char.isDigit then
        some (digitsToNat a, digitsToNat b)
      else none
  | _, [] => none

/-- The `vinteger_tags` list: `(int(group(1)), tag.strip())` for each tag whose
stripped form matches `^v(\d+)$`, in input order. -/
def vintCandidates (tags : List String) : List (Nat × String) :=
  tags.filterMap fun tag => (matchVInt (pyStrip tag)).map fun n => (n, pyStrip tag)

/-- The `integer_tags` list for `^(\d+)$`. -/
def intCandidates (tags : List String) : List (Nat × String) :=
  tags.filterMap fun tag => (matchInt (pyStrip tag)).map fun n => (n, pyStrip tag)

/-- The `major_minor_tags` list for `^(\d+)\.(\d+)$`:
`(major, minor, tag.strip())`. -/
def mmCandidates (tags : List String) : List (Nat × Nat × String) :=
  tags.filterMap fun tag =>
    (matchMajMin (pyStrip tag)).map fun p => (p.1, p.2, pyStrip tag)

/-- The ordering realised by `sort(reverse=True, key=lambda x: x[0])`:
a stable sort placing larger first components first. -/
def descFst (p q : Nat × String) : Prop := q.1 ≤ p.1

instance : DecidableRel descFst := fun p q => inferInstanceAs (Decidable (q.1 ≤ p.1))

instance : IsTotal (Nat × String) descFst := ⟨fun p q => Nat.le_total q.1 p.1⟩

instance : IsTrans (Nat × String) descFst :=
  ⟨fun _ _ _ h1 h2 => Nat.le_trans h2 h1⟩

/-- The ordering realised by `sort(reverse=True, key=lambda x: (x[0], x[1]))`:
a stable sort descending lexicographically on (major, minor). -/
def descLex (p q : Nat × Nat × String) : Prop :=
  q.1 < p.1 ∨ (q.1 = p.1 ∧ q.2.1 ≤ p.2.1)

instance : DecidableRel descLex := fun p q =>
  inferInstanceAs (Decidable (q.1 < p.1 ∨ (q.1 = p.1 ∧ q.2.1 ≤ p.2.1)))

instance : IsTotal (Nat × Nat × String) descLex := ⟨fun p q => by
  unfold descLex; omega⟩

instance : IsTrans (Nat × Nat × String) descLex := ⟨fun p q r h1 h2 => by
  unfold descLex at *; omega⟩

/-- `get_latest_version_tag(tags)`: try the three conventions in priority
order; within the first convention that has any candidate, stably sort the
candidates descending on the numeric key and return the stripped tag string
of the first element. -/
def get_latest_version_tag (tags : List String) : Option String :=
  let v := vintCandidates tags
  if !v.isEmpty then ((v.insertionSort descFst).head?).map Prod.snd
  else
    let i := intCandidates tags
    if !i.isEmpty then ((i.insertionSort descFst).head?).map Prod.snd
    else
      let m := mmCandidates tags
      if !m.isEmpty then ((m.insertionSort descLex).head?).map (fun p => p.2.2)
      else none


/-- A repository record returned by the repos API (only `name` is consumed
downstream). -/
structure RepoRec where
  name : String
deriving DecidableEq

/-- A tag record returned by the tags API (`tag["name"]`). -/
structure TagRec where
  name : String
deriving DecidableEq

/-- One page of the tags API: either a JSON list of tag records, or an
error-shaped payload (a single object carrying a `message` field). -/
inductive TagPage where
  | recs (l : List TagRec)
  | err (msg : String)
deriving DecidableEq

/-- `per_page = 100` in both pagination loops. -/
def per_page : Nat := 100

/-- `fetch_repos`: request successive pages (element `i` of the input is the
transport's response to page `i+1`); stop on an empty page (before
extending) or, after extending, on a page shorter than `per_page`. -/
def fetchRepos : List (List RepoRec) → List RepoRec
  | [] => []
  | l :: rest =>
      if l.length = 0 then []
      else if l.length < per_page then l
      else l ++ fetchRepos rest

/-- `fetch_tags`: same pagination, collecting `tag["name"]`, but an
error-shaped page breaks the loop immediately, keeping what was already
accumulated. -/
def fetchTags : List TagPage → List String
  | [] => []
  | TagPage.err _ :: _ => []
  | TagPage.recs l :: rest =>
      if l.length = 0 then []
      else if l.length < per_page then l.map TagRec.name
      else l.map TagRec.name ++ fetchTags rest

/-- The key of `versions.sort(key=lambda x: x[0].lower())` (ASCII case
folding, as `str.lower` does on these repository paths). -/
def lowerKey (s : String) : List Char := s.data.map Char.toLower

/-- Lexicographic `≤` on char lists by code point: Python's string
comparison. -/
def lexLe : List Char → List Char → Bool
  | [], _ => true
  | _ :: _, [] => false
  | a :: as, b :: bs => if a < b then true else if b < a then false else lexLe as bs

/-- The case-insensitive path order used to sort the manifest records. -/
def pathCiLe (p q : String × String) : Prop := lexLe (lowerKey p.1) (lowerKey q.1) = true

instance : DecidableRel pathCiLe := fun p q =>
  inferInstanceAs (Decidable (lexLe (lowerKey p.1) (lowerKey q.1) = true))

/-- Case-sensitive string order: `sorted(...)` in `save_unversioned`. -/
def strLe (s t : String) : Prop := lexLe s.data t.data = true

instance : DecidableRel strLe := fun s t =>
  inferInstanceAs (Decidable (lexLe s.data t.data = true))

/-- `versions.sort(key=lambda x: x[0].lower())` (line 271 of `main`):
Python's sort is stable, as is `insertionSort`. -/
def sortVersions (vs : List (String × String)) : List (String × String) :=
  vs.insertionSort pathCiLe

/-- The manifest body written to `versions.txt` (lines 273-280 of `main`):
`"\n".join(f"{full_repo}@{tag}" ...) + "\n"` over the sorted records. -/
def buildVersionsContent (vs : List (String × String)) : String :=
  String.intercalate "\n" ((sortVersions vs).map fun p => p.1 ++ "@" ++ p.2) ++ "\n"

/-- `sorted(repos)` in `save_unversioned`. -/
def sortStrings (l : List String) : List String := l.insertionSort strLe

/-- The full content written by `save_unversioned`: one identifier per line,
sorted ascending, replacing the previous file content. -/
def unversionedContent (repos : List String) : String :=
  String.join ((sortStrings repos).map fun s => s ++ "\n")

/-- `ORG_NAME = "actions"`. -/
def ORG_NAME : String := "actions"

/-- The accumulation state of `main`'s processing loops, instrumented with
the repositories for which `fetch_tags` was actually invoked. -/
structure RunState where
  versions : List (String × String)
  newUnversioned : List String
  fetchedPrimary : List String
  fetchedExtra : List String

/-- The state before any repository is processed. -/
def initState : RunState := ⟨[], [], [], []⟩

/-- One iteration of the primary-organization loop of `main` (lines 227-245):
a repository whose bare name is in the cache is skipped (no tag fetch) and
re-added to the new unversioned set; otherwise its tags are fetched and the
selector decides between a version record and the unversioned set. -/
def primaryStep (unversioned : List String) (tagsPrimary : String → List String)
    (st : RunState) (repoName : String) : RunState :=
  if repoName ∈ unversioned then
    { st with newUnversioned := st.newUnversioned ++ [repoName] }
  else
    match get_latest_version_tag (tagsPrimary repoName) with
    | some t =>
        { st with
          versions := st.versions ++ [(ORG_NAME ++ "/" ++ repoName, t)]
          fetchedPrimary := st.fetchedPrimary ++ [repoName] }
    | none =>
        { st with
          newUnversioned := st.newUnversioned ++ [repoName]
          fetchedPrimary := st.fetchedPrimary ++ [repoName] }

/-- One iteration of the extra-repositories loop of `main` (lines 250-268):
identical, except the full `owner/repo` path is the cache key and the
recorded path. -/
def extraStep (unversioned : List String) (tagsExtra : String → List String)
    (st : RunState) (fullRepo : String) : RunState :=
  if fullRepo ∈ unversioned then
    { st with newUnversioned := st.newUnversioned ++ [fullRepo] }
  else
    match get_latest_version_tag (tagsExtra fullRepo) with
    | some t =>
        { st with
          versions := st.versions ++ [(fullRepo, t)]
          fetchedExtra := st.fetchedExtra ++ [fullRepo] }
    | none =>
        { st with
          newUnversioned := st.newUnversioned ++ [fullRepo]
          fetchedExtra := st.fetchedExtra ++ [fullRepo] }

/-- The processing phase of `main`: the primary loop over the enumerated
repository names, then the extra loop over the configured `owner/repo`
paths.  `tagsPrimary name` models `fetch_tags(ORG_NAME, name)` and
`tagsExtra full` models `fetch_tags(*full.split("/", 1))`. -/
def runMain (repoNames extraRepos unversioned : List String)
    (tagsPrimary tagsExtra : String → List String) : RunState :=
  extraRepos.foldl (extraStep unversioned tagsExtra)
    (repoNames.foldl (primaryStep unversioned tagsPrimary) initState)

/-- A digit string free of redundant leading zeros: it is not of the form
`'0'` followed by at least one more character. -/
def noLeadZero : List Char → Bool
  | c :: _ :: _ => !(c = '0')
  | _ => true

/-! ### The model reproduces the behaviour exercised by the repository tests -/

example : get_latest_version_tag ["v1", "v2", "v3", "v10", "v2.1.0"] = some "v10" := by
  decide

example : get_latest_version_tag ["v1", "v2", "13", "14"] = some "v2" := by decide

example : get_latest_version_tag ["5", "13.4", "13.3"] = some "5" := by decide

example : get_latest_version_tag ["13.4", "13.3", "12.9", "12.1"] = some "13.4" := by
  decide

example : get_latest_version_tag ["9.9", "10.1", "2.5", "1.0"] = some "10.1" := by
  decide

example : get_latest_version_tag [" v3 "] = some "v3" := by decide

example : get_latest_version_tag ["V1", "v1a", "v1.0.0", "v", "1.0.0"] = none := by
  decide

example : get_latest_version_tag [] = none := by decide

example : get_latest_version_tag ["v01", "v1"] = some "v01" := by decide

/-! ### Candidate-list characterisations -/

lemma mem_vintCandidates {tags : List String} {n : Nat} {str : String} :
    (n, str) ∈ vintCandidates tags ↔
      ∃ s, s ∈ tags ∧ matchVInt (pyStrip s) = some n ∧ pyStrip s = str := by
  simp only [vintCandidates, List.mem_filterMap, Option.map_eq_some', Prod.mk.injEq]
  constructor
  · rintro ⟨s, hs, m, hm, rfl, rfl⟩
    exact ⟨s, hs, hm, rfl⟩
  · rintro ⟨s, hs, hm, rfl⟩
    exact ⟨s, hs, n, hm, rfl, rfl⟩

lemma mem_intCandidates {tags : List String} {n : Nat} {str : String} :
    (n, str) ∈ intCandidates tags ↔
      ∃ s, s ∈ tags ∧ matchInt (pyStrip s) = some n ∧ pyStrip s = str := by
  simp only [intCandidates, List.mem_filterMap, Option.map_eq_some', Prod.mk.injEq]
  constructor
  · rintro ⟨s, hs, m, hm, rfl, rfl⟩
    exact ⟨s, hs, hm, rfl⟩
  · rintro ⟨s, hs, hm, rfl⟩
    exact ⟨s, hs, n, hm, rfl, rfl⟩

lemma mem_mmCandidates {tags : List String} {a b : Nat} {str : String} :
    (a, b, str) ∈ mmCandidates tags ↔
      ∃ s, s ∈ tags ∧ matchMajMin (pyStrip s) = some (a, b) ∧ pyStrip s = str := by
  simp only [mmCandidates, List.mem_filterMap, Option.map_eq_some', Prod.mk.injEq]
  constructor
  · rintro ⟨s, hs, ⟨c, d⟩, hm, rfl, rfl, rfl⟩
    exact ⟨s, hs, hm, rfl⟩
  · rintro ⟨s, hs, hm, rfl⟩
    exact ⟨s, hs, (a, b), hm, rfl, rfl, rfl⟩

lemma vintCandidates_eq_nil {tags : List String} :
    vintCandidates tags = [] ↔ ∀ t ∈ tags, matchVInt (pyStrip t) = none := by
  simp [vintCandidates, List.filterMap_eq_nil_iff, Option.map_eq_none']

lemma intCandidates_eq_nil {tags : List String} :
    intCandidates tags = [] ↔ ∀ t ∈ tags, matchInt (pyStrip t) = none := by
  simp [intCandidates, List.filterMap_eq_nil_iff, Option.map_eq_none']

lemma mmCandidates_eq_nil {tags : List String} :
    mmCandidates tags = [] ↔ ∀ t ∈ tags, matchMajMin (pyStrip t) = none := by
  simp [mmCandidates, List.filterMap_eq_nil_iff, Option.map_eq_none']

/-! ### The head of a stable descending sort is a maximum -/

lemma head_insertionSort_max {α : Type} (r : α → α → Prop) [DecidableRel r]
    [IsTotal α r] [IsTrans α r] (l : List α) (h : l ≠ []) :
    ∃ x, (l.insertionSort r).head? = some x ∧ x ∈ l ∧ ∀ y ∈ l, r x y := by
  have hp := List.perm_insertionSort r l
  have hs := List.sorted_insertionSort r l
  cases hL : l.insertionSort r with
  | nil =>
      rw [hL] at hp
      exact absurd hp.symm.eq_nil h
  | cons a t =>
      rw [hL] at hp hs
      refine ⟨a, rfl, hp.mem_iff.mp (List.mem_cons_self a t), fun y hy => ?_⟩
      have hmem2 := hp.mem_iff.mpr hy
      rw [List.mem_cons] at hmem2
      rcases hmem2 with rfl | hyt
      · rcases IsTotal.total (r := r) y y with hr | hr <;> exact hr
      · exact List.rel_of_sorted_cons hs y hyt

/-! ### Which branch the selector takes -/

lemma sel_of_vint_ne_nil {tags : List String} (h : vintCandidates tags ≠ []) :
    ∃ p : Nat × String, get_latest_version_tag tags = some p.2 ∧
      p ∈ vintCandidates tags ∧ ∀ q ∈ vintCandidates tags, q.1 ≤ p.1 := by
  obtain ⟨x, hx, hmem, hmax⟩ := head_insertionSort_max descFst (vintCandidates tags) h
  have he : (vintCandidates tags).isEmpty = false := by
    simp [List.isEmpty_iff, h]
  refine ⟨x, ?_, hmem, fun q hq => hmax q hq⟩
  simp only [get_latest_version_tag, he, Bool.not_false, if_true, hx, Option.map_some']

lemma sel_of_int_ne_nil {tags : List String} (hv : vintCandidates tags = [])
    (h : intCandidates tags ≠ []) :
    ∃ p : Nat × String, get_latest_version_tag tags = some p.2 ∧
      p ∈ intCandidates tags ∧ ∀ q ∈ intCandidates tags, q.1 ≤ p.1 := by
  obtain ⟨x, hx, hmem, hmax⟩ := head_insertionSort_max descFst (intCandidates tags) h
  have he : (intCandidates tags).isEmpty = false := by
    simp [List.isEmpty_iff, h]
  refine ⟨x, ?_, hmem, fun q hq => hmax q hq⟩
  simp [get_latest_version_tag, hv, he, hx]

lemma sel_of_mm_ne_nil {tags : List String} (hv : vintCandidates tags = [])
    (hi : intCandidates tags = []) (h : mmCandidates tags ≠ []) :
    ∃ p : Nat × Nat × String, get_latest_version_tag tags = some p.2.2 ∧
      p ∈ mmCandidates tags ∧ ∀ q ∈ mmCandidates tags, descLex p q := by
  obtain ⟨x, hx, hmem, hmax⟩ := head_insertionSort_max descLex (mmCandidates tags) h
  have he : (mmCandidates tags).isEmpty = false := by
    simp [List.isEmpty_iff, h]
  refine ⟨x, ?_, hmem, hmax⟩
  simp [get_latest_version_tag, hv, hi, he, hx]

lemma sel_of_all_nil {tags : List String} (hv : vintCandidates tags = [])
    (hi : intCandidates tags = []) (hm : mmCandidates tags = []) :
    get_latest_version_tag tags = none := by
  simp [get_latest_version_tag, hv, hi, hm]

/-- C1: the selector evaluates the three conventions in strict priority
order.  If any tag (after stripping) matches `^v(\d+)$`, the result is the
stripped form of an input tag and itself matches `^v(\d+)$` — regardless of
any bare-integer or major.minor tags present.  If no tag matches `^v(\d+)$`
but some tag matches `^(\d+)$`, the result is a bare-integer tag. -/
theorem selector_priority (tags : List String) :
    ((∃ t ∈ tags, matchVInt (pyStrip t) ≠ none) →
      ∃ r, get_latest_version_tag tags = some r ∧
        (∃ s ∈ tags, r = pyStrip s) ∧ matchVInt r ≠ none) ∧
    ((∀ t ∈ tags, matchVInt (pyStrip t) = none) →
      (∃ t ∈ tags, matchInt (pyStrip t) ≠ none) →
      ∃ r, get_latest_version_tag tags = some r ∧
        (∃ s ∈ tags, r = pyStrip s) ∧ matchInt r ≠ none) := by
  constructor
  · rintro ⟨t, ht, hne⟩
    obtain ⟨n, hn⟩ := Option.ne_none_iff_exists'.mp hne
    have hmemc : (n, pyStrip t) ∈ vintCandidates tags :=
      mem_vintCandidates.mpr ⟨t, ht, hn, rfl⟩
    obtain ⟨⟨pn, pstr⟩, hsel, hp, _⟩ :=
      sel_of_vint_ne_nil (List.ne_nil_of_mem hmemc)
    obtain ⟨s, hs, hm, hps⟩ := mem_vintCandidates.mp hp
    exact ⟨pstr, hsel, ⟨s, hs, hps.symm⟩, by rw [← hps]; simp [hm]⟩
  · rintro hall ⟨t, ht, hne⟩
    have hv := vintCandidates_eq_nil.mpr hall
    obtain ⟨n, hn⟩ := Option.ne_none_iff_exists'.mp hne
    have hmemc : (n, pyStrip t) ∈ intCandidates tags :=
      mem_intCandidates.mpr ⟨t, ht, hn, rfl⟩
    obtain ⟨⟨pn, pstr⟩, hsel, hp, _⟩ :=
      sel_of_int_ne_nil hv (List.ne_nil_of_mem hmemc)
    obtain ⟨s, hs, hm, hps⟩ := mem_intCandidates.mp hp
    exact ⟨pstr, hsel, ⟨s, hs, hps.symm⟩, by rw [← hps]; simp [hm]⟩

/-- Witness for C1 on the spec's own examples: `["v1","v2","13","14"]`
selects a `vN` tag, and `["5","13.4","13.3"]` selects a bare-integer tag. -/
theorem selector_priority_witness :
    (∃ r, get_latest_version_tag ["v1", "v2", "13", "14"] = some r ∧
      (∃ s ∈ (["v1", "v2", "13", "14"] : List String), r = pyStrip s) ∧
      matchVInt r ≠ none) ∧
    (∃ r, get_latest_version_tag ["5", "13.4", "13.3"] = some r ∧
      (∃ s ∈ (["5", "13.4", "13.3"] : List String), r = pyStrip s) ∧
      matchInt r ≠ none) :=
  ⟨(selector_priority ["v1", "v2", "13", "14"]).1 (by decide),
   (selector_priority ["5", "13.4", "13.3"]).2 (by decide) (by decide)⟩

/-- C2: within the winning convention the ranking is numeric.  If some tag
matches `^v(\d+)$`, the returned tag's captured integer is maximal among all
`vN` matches; if the major.minor convention wins (no `vN` and no bare-integer
match), the returned tag maximises `(major, minor)` ordered lexicographically
with major first. -/
theorem selector_numeric_max (tags : List String) :
    ((∃ t ∈ tags, matchVInt (pyStrip t) ≠ none) →
      ∃ r n, get_latest_version_tag tags = some r ∧ matchVInt r = some n ∧
        ∀ t ∈ tags, ∀ m, matchVInt (pyStrip t) = some m → m ≤ n) ∧
    ((∀ t ∈ tags, matchVInt (pyStrip t) = none) →
      (∀ t ∈ tags, matchInt (pyStrip t) = none) →
      (∃ t ∈ tags, matchMajMin (pyStrip t) ≠ none) →
      ∃ r a b, get_latest_version_tag tags = some r ∧ matchMajMin r = some (a, b) ∧
        ∀ t ∈ tags, ∀ c d, matchMajMin (pyStrip t) = some (c, d) →
          (c < a ∨ (c = a ∧ d ≤ b))) := by
  constructor
  · rintro ⟨t, ht, hne⟩
    obtain ⟨n, hn⟩ := Option.ne_none_iff_exists'.mp hne
    have hmemc : (n, pyStrip t) ∈ vintCandidates tags :=
      mem_vintCandidates.mpr ⟨t, ht, hn, rfl⟩
    obtain ⟨⟨pn, pstr⟩, hsel, hp, hmax⟩ :=
      sel_of_vint_ne_nil (List.ne_nil_of_mem hmemc)
    obtain ⟨s, hs, hm, hps⟩ := mem_vintCandidates.mp hp
    refine ⟨pstr, pn, hsel, by rw [← hps]; exact hm, fun u hu m hm' => ?_⟩
    exact hmax (m, pyStrip u) (mem_vintCandidates.mpr ⟨u, hu, hm', rfl⟩)
  · rintro hallv halli ⟨t, ht, hne⟩
    have hv := vintCandidates_eq_nil.mpr hallv
    have hi := intCandidates_eq_nil.mpr halli
    obtain ⟨⟨a0, b0⟩, hn⟩ := Option.ne_none_iff_exists'.mp hne
    have hmemc : (a0, b0, pyStrip t) ∈ mmCandidates tags :=
      mem_mmCandidates.mpr ⟨t, ht, hn, rfl⟩
    obtain ⟨⟨pa, pb, pstr⟩, hsel, hp, hmax⟩ :=
      sel_of_mm_ne_nil hv hi (List.ne_nil_of_mem hmemc)
    obtain ⟨s, hs, hm, hps⟩ := mem_mmCandidates.mp hp
    refine ⟨pstr, pa, pb, hsel, by rw [← hps]; exact hm, fun u hu c d hm' => ?_⟩
    exact hmax (c, d, pyStrip u) (mem_mmCandidates.mpr ⟨u, hu, hm', rfl⟩)

/-- Witness for C2 on the spec's examples: `["v1","v2","v3","v10","v2.1.0"]`
yields the maximal `vN` value, and `["9.9","10.1","2.5","1.0"]` yields the
lexicographically maximal (major, minor). -/
theorem selector_numeric_max_witness :
    (∃ r n, get_latest_version_tag ["v1", "v2", "v3", "v10", "v2.1.0"] = some r ∧
      matchVInt r = some n ∧
      ∀ t ∈ (["v1", "v2", "v3", "v10", "v2.1.0"] : List String), ∀ m,
        matchVInt (pyStrip t) = some m → m ≤ n) ∧
    (∃ r a b, get_latest_version_tag ["9.9", "10.1", "2.5", "1.0"] = some r ∧
      matchMajMin r = some (a, b) ∧
      ∀ t ∈ (["9.9", "10.1", "2.5", "1.0"] : List String), ∀ c d,
        matchMajMin (pyStrip t) = some (c, d) → (c < a ∨ (c = a ∧ d ≤ b))) :=
  ⟨(selector_numeric_max ["v1", "v2", "v3", "v10", "v2.1.0"]).1 (by decide),
   (selector_numeric_max ["9.9", "10.1", "2.5", "1.0"]).2
     (by decide) (by decide) (by decide)⟩

/-- C3: matching is strict up to surrounding whitespace.  Each of `V1`,
`v1a`, `v1.0.0`, `v`, `1.0.0`, `release-1`, `beta`, `abc` is rejected by all
three conventions (and is its own stripped form); whenever no tag matches any
convention the selector returns `none`; the empty list returns `none`. -/
theorem selector_strict (tags : List String) :
    ((∀ t ∈ tags, matchVInt (pyStrip t) = none ∧ matchInt (pyStrip t) = none ∧
        matchMajMin (pyStrip t) = none) → get_latest_version_tag tags = none) ∧
    get_latest_version_tag [] = none ∧
    (∀ s ∈ (["V1", "v1a", "v1.0.0", "v", "1.0.0", "release-1", "beta",
        "abc"] : List String),
      matchVInt s = none ∧ matchInt s = none ∧ matchMajMin s = none ∧
        pyStrip s = s) := by
  refine ⟨fun h => ?_, by decide, by decide⟩
  exact sel_of_all_nil
    (vintCandidates_eq_nil.mpr fun t ht => (h t ht).1)
    (intCandidates_eq_nil.mpr fun t ht => (h t ht).2.1)
    (mmCandidates_eq_nil.mpr fun t ht => (h t ht).2.2)

/-- Witness for C3: a list whose tags match no convention yields `none`. -/
theorem selector_strict_witness :
    get_latest_version_tag ["release-1", "beta", "v1.0.0"] = none :=
  (selector_strict ["release-1", "beta", "v1.0.0"]).1 (by decide)

/-- C9: whenever the selector returns a tag, the returned string is the
whitespace-stripped form of some element of the input list, and it matches
one of the three conventions. -/
theorem selector_returns_stripped (tags : List String) (t : String)
    (h : get_latest_version_tag tags = some t) :
    (∃ s ∈ tags, t = pyStrip s) ∧
    (matchVInt t ≠ none ∨ matchInt t ≠ none ∨ matchMajMin t ≠ none) := by
  by_cases hv : vintCandidates tags = []
  · by_cases hi : intCandidates tags = []
    · by_cases hm : mmCandidates tags = []
      · rw [sel_of_all_nil hv hi hm] at h; cases h
      · obtain ⟨⟨pa, pb, pstr⟩, hsel, hp, _⟩ := sel_of_mm_ne_nil hv hi hm
        obtain ⟨s, hs, hms, hps⟩ := mem_mmCandidates.mp hp
        obtain rfl : pstr = t := Option.some.inj (hsel.symm.trans h)
        exact ⟨⟨s, hs, hps.symm⟩,
          Or.inr (Or.inr (by rw [← hps]; simp [hms]))⟩
    · obtain ⟨⟨pn, pstr⟩, hsel, hp, _⟩ := sel_of_int_ne_nil hv hi
      obtain ⟨s, hs, hms, hps⟩ := mem_intCandidates.mp hp
      obtain rfl : pstr = t := Option.some.inj (hsel.symm.trans h)
      exact ⟨⟨s, hs, hps.symm⟩, Or.inr (Or.inl (by rw [← hps]; simp [hms]))⟩
  · obtain ⟨⟨pn, pstr⟩, hsel, hp, _⟩ := sel_of_vint_ne_nil hv
    obtain ⟨s, hs, hms, hps⟩ := mem_vintCandidates.mp hp
    obtain rfl : pstr = t := Option.some.inj (hsel.symm.trans h)
    exact ⟨⟨s, hs, hps.symm⟩, Or.inl (by rw [← hps]; simp [hms])⟩

/-- Witness for C9: the input `" v3 "` (with surrounding whitespace) is
returned in stripped form `"v3"`, which matches a convention. -/
theorem selector_returns_stripped_witness :
    (∃ s ∈ ([" v3 "] : List String), "v3" = pyStrip s) ∧
    (matchVInt "v3" ≠ none ∨ matchInt "v3" ≠ none ∨ matchMajMin "v3" ≠ none) :=
  selector_returns_stripped [" v3 "] "v3" (by decide)

/-! ### Decimal digit strings: value injectivity without leading zeros -/

lemma char_eq_of_toNat_eq {c d : Char} (h : c.toNat = d.toNat) : c = d := by
  unfold Char.toNat at h
  exact Char.ext (UInt32.toNat.inj h)

lemma isDigit_bounds {c : Char} (h : c.isDigit = true) :
    48 ≤ c.toNat ∧ c.toNat ≤ 57 := by
  simp [Char.isDigit] at h
  exact ⟨h.1, h.2⟩

lemma digitsToNat_concat (l : List Char) (c : Char) :
    digitsToNat (l ++ [c]) = 10 * digitsToNat l + (c.toNat - 48) := by
  simp [digitsToNat, List.foldl_append]

lemma le_foldl_digits (t : List Char) (n : Nat) :
    n ≤ t.foldl (fun n c => 10 * n + (c.toNat - 48)) n := by
  induction t generalizing n with
  | nil => exact Nat.le_refl n
  | cons c t ih =>
      calc n ≤ 10 * n + (c.toNat - 48) := by omega
        _ ≤ _ := ih _

lemma digitsToNat_cons_lower (h : Char) (t : List Char) :
    h.toNat - 48 ≤ digitsToNat (h :: t) := by
  have := le_foldl_digits t (h.toNat - 48)
  simpa [digitsToNat] using this

lemma noLeadZero_cons {h : Char} {t : List Char} :
    noLeadZero (h :: t) = true ↔ (h ≠ '0' ∨ t = []) := by
  cases t with
  | nil => simp [noLeadZero]
  | cons a t' => simp [noLeadZero]

/-- Decimal value is injective on nonempty digit strings that carry no
redundant leading zero. -/
lemma digitsToNat_inj (a : List Char) : ∀ b : List Char,
    (∀ x ∈ a, x.isDigit = true) → (∀ x ∈ b, x.isDigit = true) →
    a ≠ [] → b ≠ [] → noLeadZero a = true → noLeadZero b = true →
    digitsToNat a = digitsToNat b → a = b := by
  induction a using List.reverseRecOn with
  | nil => intro b _ _ ha _ _ _ _; exact absurd rfl ha
  | append_singleton l c ih =>
      intro b hda hdb _ hb nza nzb hv
      rcases b.eq_nil_or_concat with rfl | ⟨m, d, rfl⟩
      · exact absurd rfl hb
      · rw [List.concat_eq_append] at hdb nzb hv ⊢
        rw [digitsToNat_concat, digitsToNat_concat] at hv
        have hc : c.isDigit = true := hda c (by simp)
        have hd : d.isDigit = true := hdb d (by simp)
        have hcb := isDigit_bounds hc
        have hdb' := isDigit_bounds hd
        have hcd : c.toNat - 48 = d.toNat - 48 := by omega
        have hce : c = d := char_eq_of_toNat_eq (by omega)
        have hlm : digitsToNat l = digitsToNat m := by omega
        subst hce
        cases hl : l with
        | nil =>
            cases hm : m with
            | nil => rfl
            | cons m0 mt =>
                exfalso
                rw [hl, hm] at hlm
                have hzero : (0 : Nat) = digitsToNat (m0 :: mt) := hlm
                have hm0 : m0.isDigit = true := hdb m0 (by simp [hm])
                have hm0b := isDigit_bounds hm0
                have hm0ne : m0 ≠ '0' := by
                  rw [hm, List.cons_append] at nzb
                  rcases noLeadZero_cons.mp nzb with hne | habs
                  · exact hne
                  · simp at habs
                have hm0n : m0.toNat ≠ 48 := fun h48 =>
                  hm0ne (char_eq_of_toNat_eq (by rw [h48]; decide))
                have hlow := digitsToNat_cons_lower m0 mt
                omega
        | cons l0 lt =>
            cases hm : m with
            | nil =>
                exfalso
                rw [hl, hm] at hlm
                have hzero : digitsToNat (l0 :: lt) = (0 : Nat) := hlm
                have hl0 : l0.isDigit = true := hda l0 (by simp [hl])
                have hl0b := isDigit_bounds hl0
                have hl0ne : l0 ≠ '0' := by
                  rw [hl, List.cons_append] at nza
                  rcases noLeadZero_cons.mp nza with hne | habs
                  · exact hne
                  · simp at habs
                have hl0n : l0.toNat ≠ 48 := fun h48 =>
                  hl0ne (char_eq_of_toNat_eq (by rw [h48]; decide))
                have hlow := digitsToNat_cons_lower l0 lt
                omega
            | cons m0 mt =>
                rw [← hl, ← hm]
                have hlnz : noLeadZero l = true := by
                  rw [hl]
                  rw [hl, List.cons_append] at nza
                  rcases noLeadZero_cons.mp nza with hne | habs
                  · exact noLeadZero_cons.mpr (Or.inl hne)
                  · simp at habs
                have hmnz : noLeadZero m = true := by
                  rw [hm]
                  rw [hm, List.cons_append] at nzb
                  rcases noLeadZero_cons.mp nzb with hne | habs
                  · exact noLeadZero_cons.mpr (Or.inl hne)
                  · simp at habs
                have hl' : l ≠ [] := by rw [hl]; simp
                have hm' : m ≠ [] := by rw [hm]; simp
                have heq : l = m := ih m
                  (fun x hx => hda x (List.mem_append_left _ hx))
                  (fun x hx => hdb x (List.mem_append_left _ hx))
                  hl' hm' hlnz hmnz hlm
                rw [heq]

/-- Inversion of a successful `^v(\d+)$` match. -/
lemma matchVInt_inv {s : String} {n : Nat} (h : matchVInt s = some n) :
    ∃ ds, s.data = 'v' :: ds ∧ ds ≠ [] ∧ (∀ x ∈ ds, x.isDigit = true) ∧
      digitsToNat ds = n := by
  unfold matchVInt at h
  rcases hds : s.data with _ | ⟨c, ds⟩ <;> rw [hds] at h
  · cases h
  · split at h
    · rename_i c2 ds2 hcond
      injection hcond with hc1 hc2
      subst hc1
      subst hc2
      split at h
      · rename_i hcond2
        injection h with hn
        simp only [Bool.and_eq_true, decide_eq_true_eq, Bool.not_eq_true',
          List.all_eq_true] at hcond2
        obtain ⟨⟨hcv, hemp⟩, hall⟩ := hcond2
        subst hcv
        refine ⟨ds, by simp [hds], ?_, hall, hn⟩
        intro hnil
        rw [hnil] at hemp
        simp at hemp
      · cases h
    · cases h

/-- C4 counterexample: the claim "any two distinct tag strings that both
match `^v(\d+)$` (after stripping) have distinct captured integer values" is
false — `"v01"` and `"v1"` are distinct, both are their own stripped forms,
both match, and both capture the value 1.  On `["v01", "v1"]` the selector
resolves the tie by the stable sort (first occurrence wins). -/
theorem vint_tie_counterexample :
    ("v01" : String) ≠ "v1" ∧ pyStrip "v01" = "v01" ∧ pyStrip "v1" = "v1" ∧
    matchVInt "v01" = some 1 ∧ matchVInt "v1" = some 1 ∧
    get_latest_version_tag ["v01", "v1"] = some "v01" := by decide

/-- C4 (amended): within the prefixed-integer convention, two distinct
matching tag strings can share a captured value only through redundant
leading zeros in the digit part; if neither digit part has a leading zero,
equal captured values force the strings to be equal (so each integer maps to
exactly one leading-zero-free string form, and ties otherwise arise only
from duplicate tag strings). -/
theorem vint_value_injective (s t : String) (n : Nat)
    (hs : matchVInt s = some n) (ht : matchVInt t = some n)
    (hzs : noLeadZero (s.data.drop 1) = true)
    (hzt : noLeadZero (t.data.drop 1) = true) : s = t := by
  obtain ⟨ds, hds, hdsne, hdsd, hdsv⟩ := matchVInt_inv hs
  obtain ⟨es, hes, hesne, hesd, hesv⟩ := matchVInt_inv ht
  have hdz : noLeadZero ds = true := by rw [hds] at hzs; simpa using hzs
  have hez : noLeadZero es = true := by rw [hes] at hzt; simpa using hzt
  have heq : ds = es :=
    digitsToNat_inj ds es hdsd hesd hdsne hesne hdz hez (by rw [hdsv, hesv])
  exact String.ext (by rw [hds, hes, heq])

/-- Witness for the amended C4 at concrete leading-zero-free inputs. -/
theorem vint_value_injective_witness :
    matchVInt "v7" = some 7 ∧ noLeadZero (("v7" : String).data.drop 1) = true ∧
    ("v7" : String) = "v7" :=
  ⟨by decide, by decide,
   vint_value_injective "v7" "v7" 7 (by decide) (by decide) (by decide) (by decide)⟩

/-! ### Pagination -/

lemma fetchRepos_pages (fulls : List (List RepoRec)) :
    ∀ (lastPage : List RepoRec) (junk : List (List RepoRec)),
      (∀ l ∈ fulls, l.length = per_page) → lastPage.length < per_page →
      fetchRepos (fulls ++ lastPage :: junk) = fulls.join ++ lastPage := by
  induction fulls with
  | nil =>
      intro lastPage junk _ hshort
      simp only [List.nil_append, List.join_nil]
      by_cases h0 : lastPage.length = 0
      · have h0' : lastPage = [] := List.length_eq_zero.mp h0
        subst h0'
        simp [fetchRepos]
      · simp [fetchRepos, h0, hshort]
  | cons l fs ih =>
      intro lastPage junk hfull hshort
      have hl : l.length = per_page := hfull l (List.mem_cons_self l fs)
      have ih' := ih lastPage junk (fun x hx => hfull x (List.mem_cons_of_mem l hx)) hshort
      simp only [List.cons_append, List.join_cons, fetchRepos, hl, per_page]
      norm_num
      rw [ih']

lemma fetchTags_pages (fulls : List (List TagRec)) :
    ∀ (lastPage : List TagRec) (junk : List TagPage),
      (∀ l ∈ fulls, l.length = per_page) → lastPage.length < per_page →
      fetchTags (fulls.map TagPage.recs ++ TagPage.recs lastPage :: junk) =
        (fulls.map fun l => l.map TagRec.name).join ++ lastPage.map TagRec.name := by
  induction fulls with
  | nil =>
      intro lastPage junk _ hshort
      simp only [List.map_nil, List.nil_append, List.join_nil]
      by_cases h0 : lastPage.length = 0
      · have h0' : lastPage = [] := List.length_eq_zero.mp h0
        subst h0'
        simp [fetchTags]
      · simp [fetchTags, h0, hshort]
  | cons l fs ih =>
      intro lastPage junk hfull hshort
      have hl : l.length = per_page := hfull l (List.mem_cons_self l fs)
      have ih' := ih lastPage junk (fun x hx => hfull x (List.mem_cons_of_mem l hx)) hshort
      simp only [List.map_cons, List.cons_append, List.join_cons, fetchTags, hl, per_page]
      norm_num
      rw [ih']

/-- C6: both page-fetch loops consume successive pages, stop exactly at the
first page that is empty or shorter than `per_page = 100` (any later pages
are never requested), and return the concatenation of all received records
in page order, including the short final page. -/
theorem pagination_loops :
    (∀ (fulls : List (List RepoRec)) (lastPage : List RepoRec)
        (junk : List (List RepoRec)),
      (∀ l ∈ fulls, l.length = per_page) → lastPage.length < per_page →
      fetchRepos (fulls ++ lastPage :: junk) = fulls.join ++ lastPage) ∧
    (∀ (fulls : List (List TagRec)) (lastPage : List TagRec) (junk : List TagPage),
      (∀ l ∈ fulls, l.length = per_page) → lastPage.length < per_page →
      fetchTags (fulls.map TagPage.recs ++ TagPage.recs lastPage :: junk) =
        (fulls.map fun l => l.map TagRec.name).join ++ lastPage.map TagRec.name) :=
  ⟨fun fulls lastPage junk h1 h2 => fetchRepos_pages fulls lastPage junk h1 h2,
   fun fulls lastPage junk h1 h2 => fetchTags_pages fulls lastPage junk h1 h2⟩

/-- Witness for C6: one full page of 100 records followed by a short page;
a later junk page is ignored by both loops. -/
theorem pagination_loops_witness :
    fetchRepos ([List.replicate 100 (RepoRec.mk "r")] ++
        [RepoRec.mk "a"] :: [[RepoRec.mk "z"]]) =
      [List.replicate 100 (RepoRec.mk "r")].join ++ [RepoRec.mk "a"] ∧
    fetchTags ([List.replicate 100 (TagRec.mk "v1")].map TagPage.recs ++
        TagPage.recs [TagRec.mk "v2"] :: [TagPage.recs [TagRec.mk "v3"]]) =
      ([List.replicate 100 (TagRec.mk "v1")].map fun l => l.map TagRec.name).join ++
        [TagRec.mk "v2"].map TagRec.name :=
  ⟨pagination_loops.1 [List.replicate 100 (RepoRec.mk "r")] [RepoRec.mk "a"]
      [[RepoRec.mk "z"]] (by simp [per_page]) (by simp [per_page]),
   pagination_loops.2 [List.replicate 100 (TagRec.mk "v1")] [TagRec.mk "v2"]
      [TagPage.recs [TagRec.mk "v3"]] (by simp [per_page]) (by simp [per_page])⟩

/-- C5: an error-shaped page received on page `n` stops the tag fetcher
immediately, without raising, returning exactly the tag names accumulated
from the preceding pages 1 .. n-1 (the empty list when the first page is
error-shaped). -/
theorem fetchTags_error_page (fulls : List (List TagRec)) (msg : String)
    (rest : List TagPage) (hfull : ∀ l ∈ fulls, l.length = per_page) :
    fetchTags (fulls.map TagPage.recs ++ TagPage.err msg :: rest) =
      (fulls.map fun l => l.map TagRec.name).join := by
  induction fulls with
  | nil => rfl
  | cons l fs ih =>
      have hl : l.length = per_page := hfull l (List.mem_cons_self l fs)
      have ih' := ih fun x hx => hfull x (List.mem_cons_of_mem l hx)
      simp only [List.map_cons, List.cons_append, List.join_cons, fetchTags, hl, per_page]
      norm_num
      exact ih'

/-- Witness for C5: a full page, then a rate-limit error page; the two junk
pages after the error are never consumed, and only page 1's names are kept.
Also the degenerate case: an error on the very first page yields `[]`. -/
theorem fetchTags_error_page_witness :
    fetchTags ([List.replicate 100 (TagRec.mk "v1")].map TagPage.recs ++
        TagPage.err "API rate limit exceeded" :: [TagPage.recs [TagRec.mk "v9"]]) =
      ([List.replicate 100 (TagRec.mk "v1")].map fun l => l.map TagRec.name).join ∧
    fetchTags ([].map TagPage.recs ++ TagPage.err "boom" :: []) =
      (([] : List (List TagRec)).map fun l => l.map TagRec.name).join :=
  ⟨fetchTags_error_page [List.replicate 100 (TagRec.mk "v1")]
      "API rate limit exceeded" [TagPage.recs [TagRec.mk "v9"]] (by simp [per_page]),
   fetchTags_error_page [] "boom" [] (by simp)⟩

/-- C10: when no version records are accepted, the manifest content built by
`main` is exactly one newline character, not an empty string. -/
theorem empty_manifest_is_newline : buildVersionsContent [] = "\n" := by decide

/-! ### The lexicographic string order is total and transitive -/

lemma lexLe_total : ∀ a b : List Char, lexLe a b = true ∨ lexLe b a = true := by
  intro a
  induction a with
  | nil => intro b; left; rfl
  | cons x xs ih =>
      intro b
      cases b with
      | nil => right; rfl
      | cons y ys =>
          rcases lt_trichotomy x y with h | h | h
          · left
            simp only [lexLe]
            rw [if_pos h]
          · subst h
            rcases ih ys with h2 | h2
            · left
              simp only [lexLe]
              rw [if_neg (lt_irrefl x), if_neg (lt_irrefl x)]
              exact h2
            · right
              simp only [lexLe]
              rw [if_neg (lt_irrefl x), if_neg (lt_irrefl x)]
              exact h2
          · right
            simp only [lexLe]
            rw [if_pos h]

lemma lexLe_trans : ∀ a b c : List Char,
    lexLe a b = true → lexLe b c = true → lexLe a c = true := by
  intro a
  induction a with
  | nil => intro b c _ _; rfl
  | cons x xs ih =>
      intro b c hab hbc
      cases b with
      | nil => simp [lexLe] at hab
      | cons y ys =>
          cases c with
          | nil => simp [lexLe] at hbc
          | cons z zs =>
              simp only [lexLe] at hab hbc ⊢
              rcases lt_trichotomy x y with hxy | hxy | hxy
              · rcases lt_trichotomy y z with hyz | hyz | hyz
                · rw [if_pos (lt_trans hxy hyz)]
                · subst hyz; rw [if_pos hxy]
                · rw [if_pos hyz, if_neg (lt_asymm hyz)] at hbc
                  cases hbc
              · subst hxy
                rcases lt_trichotomy x z with hyz | hyz | hyz
                · rw [if_pos hyz]
                · subst hyz
                  rw [if_neg (lt_irrefl x), if_neg (lt_irrefl x)] at hab hbc ⊢
                  exact ih ys zs hab hbc
                · rw [if_pos hyz, if_neg (lt_asymm hyz)] at hbc
                  cases hbc
              · rw [if_pos hxy, if_neg (lt_asymm hxy)] at hab
                cases hab

instance : IsTotal (String × String) pathCiLe := ⟨fun p q => lexLe_total _ _⟩

instance : IsTrans (String × String) pathCiLe := ⟨fun p q r => lexLe_trans _ _ _⟩

instance : IsTotal String strLe := ⟨fun s t => lexLe_total _ _⟩

instance : IsTrans String strLe := ⟨fun s t u => lexLe_trans _ _ _⟩

/-! ### `"\n".join(lines) + "\n"` is one newline-terminated line per record -/

lemma join_nil : String.join [] = "" := rfl

lemma join_cons (a : String) (l : List String) :
    String.join (a :: l) = a ++ String.join l := by
  simp [String.join_eq, String.ext_iff]

lemma intercalate_go_eq (s : String) (l : List String) : ∀ acc : String,
    String.intercalate.go acc s l = acc ++ String.join (l.map fun a => s ++ a) := by
  induction l with
  | nil => intro acc; simp [String.intercalate.go, join_nil, String.append_empty]
  | cons a as ih =>
      intro acc
      simp only [String.intercalate.go, List.map_cons, join_cons, ih,
        String.append_assoc]

lemma join_map_swap (s : String) (as : List String) :
    String.join (as.map fun x => s ++ x) ++ s =
      s ++ String.join (as.map fun x => x ++ s) := by
  induction as with
  | nil => simp [join_nil, String.append_empty, String.empty_append]
  | cons b bs ih =>
      simp only [List.map_cons, join_cons, String.append_assoc]
      rw [ih]

lemma intercalate_newline (l : List String) (h : l ≠ []) (s : String) :
    String.intercalate s l ++ s = String.join (l.map fun a => a ++ s) := by
  cases l with
  | nil => exact absurd rfl h
  | cons a as =>
      show String.intercalate.go a s as ++ s = _
      rw [intercalate_go_eq, String.append_assoc, join_map_swap]
      simp [List.map_cons, join_cons, String.append_assoc]

/-- C7: the writer sorts the accepted `(path, tag)` records by path under
case-insensitive lexicographic order (a permutation of the input, pairwise
ordered) and emits one `owner/repo@tag` line per record, each terminated by a
newline (so the last line carries the trailing newline); the unversioned
cache content is the identifiers sorted case-sensitively ascending, one per
line. -/
theorem writer_sorted_lines (vs : List (String × String)) (us : List String)
    (hvs : vs ≠ []) :
    (sortVersions vs).Perm vs ∧ (sortVersions vs).Pairwise pathCiLe ∧
    buildVersionsContent vs =
      String.join ((sortVersions vs).map fun p => p.1 ++ "@" ++ p.2 ++ "\n") ∧
    (sortStrings us).Perm us ∧ (sortStrings us).Pairwise strLe ∧
    unversionedContent us = String.join ((sortStrings us).map fun s => s ++ "\n") := by
  refine ⟨List.perm_insertionSort _ _, List.sorted_insertionSort _ _, ?_,
    List.perm_insertionSort _ _, List.sorted_insertionSort _ _, rfl⟩
  have hsne : sortVersions vs ≠ [] := by
    intro h0
    have hlen := (List.perm_insertionSort pathCiLe vs).length_eq
    rw [sortVersions] at h0
    rw [h0] at hlen
    exact hvs (List.length_eq_zero.mp hlen.symm)
  have hne : (sortVersions vs).map (fun p => p.1 ++ "@" ++ p.2) ≠ [] := by
    simp only [ne_eq, List.map_eq_nil_iff]
    exact hsne
  unfold buildVersionsContent
  rw [intercalate_newline _ hne]
  simp only [List.map_map]
  rfl

/-- Witness for C7 at concrete record lists (note `Z-repo` sorts between the
two lowercase paths only under case-insensitive order). -/
theorem writer_sorted_lines_witness :
    (sortVersions [("actions/setup-python", "v5"), ("actions/Z-repo", "v1"),
        ("actions/setup-node", "v4")]).Perm
      [("actions/setup-python", "v5"), ("actions/Z-repo", "v1"),
        ("actions/setup-node", "v4")] ∧
    (sortVersions [("actions/setup-python", "v5"), ("actions/Z-repo", "v1"),
        ("actions/setup-node", "v4")]).Pairwise pathCiLe ∧
    buildVersionsContent [("actions/setup-python", "v5"), ("actions/Z-repo", "v1"),
        ("actions/setup-node", "v4")] =
      String.join ((sortVersions [("actions/setup-python", "v5"),
        ("actions/Z-repo", "v1"), ("actions/setup-node", "v4")]).map
          fun p => p.1 ++ "@" ++ p.2 ++ "\n") ∧
    (sortStrings ["zebra", "alpha", "mango"]).Perm ["zebra", "alpha", "mango"] ∧
    (sortStrings ["zebra", "alpha", "mango"]).Pairwise strLe ∧
    unversionedContent ["zebra", "alpha", "mango"] =
      String.join ((sortStrings ["zebra", "alpha", "mango"]).map fun s => s ++ "\n") :=
  writer_sorted_lines [("actions/setup-python", "v5"), ("actions/Z-repo", "v1"),
    ("actions/setup-node", "v4")] ["zebra", "alpha", "mango"] (by decide)

/-! ### The cache-skip behaviour of the processing loops of `main` -/

lemma primaryStep_fetchedPrimary (unv : List String) (tg : String → List String)
    (st : RunState) (n : String) :
    (primaryStep unv tg st n).fetchedPrimary =
      st.fetchedPrimary ++ (if n ∈ unv then [] else [n]) := by
  by_cases hn : n ∈ unv
  · simp [primaryStep, hn]
  · cases h : get_latest_version_tag (tg n) <;> simp [primaryStep, hn, h]

lemma primaryStep_fetchedExtra (unv : List String) (tg : String → List String)
    (st : RunState) (n : String) :
    (primaryStep unv tg st n).fetchedExtra = st.fetchedExtra := by
  by_cases hn : n ∈ unv
  · simp [primaryStep, hn]
  · cases h : get_latest_version_tag (tg n) <;> simp [primaryStep, hn, h]

lemma primaryStep_newUnversioned (unv : List String) (tg : String → List String)
    (st : RunState) (n : String) :
    (primaryStep unv tg st n).newUnversioned = st.newUnversioned ++
      (if n ∈ unv ∨ get_latest_version_tag (tg n) = none then [n] else []) := by
  by_cases hn : n ∈ unv
  · simp [primaryStep, hn]
  · cases h : get_latest_version_tag (tg n) <;> simp [primaryStep, hn, h]

lemma extraStep_fetchedExtra (unv : List String) (tg : String → List String)
    (st : RunState) (n : String) :
    (extraStep unv tg st n).fetchedExtra =
      st.fetchedExtra ++ (if n ∈ unv then [] else [n]) := by
  by_cases hn : n ∈ unv
  · simp [extraStep, hn]
  · cases h : get_latest_version_tag (tg n) <;> simp [extraStep, hn, h]

lemma extraStep_fetchedPrimary (unv : List String) (tg : String → List String)
    (st : RunState) (n : String) :
    (extraStep unv tg st n).fetchedPrimary = st.fetchedPrimary := by
  by_cases hn : n ∈ unv
  · simp [extraStep, hn]
  · cases h : get_latest_version_tag (tg n) <;> simp [extraStep, hn, h]

lemma extraStep_newUnversioned (unv : List String) (tg : String → List String)
    (st : RunState) (n : String) :
    (extraStep unv tg st n).newUnversioned = st.newUnversioned ++
      (if n ∈ unv ∨ get_latest_version_tag (tg n) = none then [n] else []) := by
  by_cases hn : n ∈ unv
  · simp [extraStep, hn]
  · cases h : get_latest_version_tag (tg n) <;> simp [extraStep, hn, h]

lemma primary_foldl_fetchedPrimary (unv : List String) (tg : String → List String) :
    ∀ (names : List String) (st : RunState),
      (names.foldl (primaryStep unv tg) st).fetchedPrimary =
        st.fetchedPrimary ++ names.filter fun n => !decide (n ∈ unv) := by
  intro names
  induction names with
  | nil => intro st; simp
  | cons n ns ih =>
      intro st
      rw [List.foldl_cons, ih, primaryStep_fetchedPrimary, List.filter_cons]
      by_cases hn : n ∈ unv <;> simp [hn]

lemma primary_foldl_fetchedExtra (unv : List String) (tg : String → List String) :
    ∀ (names : List String) (st : RunState),
      (names.foldl (primaryStep unv tg) st).fetchedExtra = st.fetchedExtra := by
  intro names
  induction names with
  | nil => intro st; rfl
  | cons n ns ih =>
      intro st
      rw [List.foldl_cons, ih, primaryStep_fetchedExtra]

lemma primary_foldl_newUnversioned (unv : List String) (tg : String → List String) :
    ∀ (names : List String) (st : RunState),
      (names.foldl (primaryStep unv tg) st).newUnversioned =
        st.newUnversioned ++ names.filter fun n =>
          decide (n ∈ unv) || decide (get_latest_version_tag (tg n) = none) := by
  intro names
  induction names with
  | nil => intro st; simp
  | cons n ns ih =>
      intro st
      rw [List.foldl_cons, ih, primaryStep_newUnversioned, List.filter_cons]
      by_cases hn : n ∈ unv ∨ get_latest_version_tag (tg n) = none
      · have hb : (decide (n ∈ unv) || decide (get_latest_version_tag (tg n) = none))
            = true := by
          rcases hn with h | h <;> simp [h]
        simp [hn, hb]
      · have hb : (decide (n ∈ unv) || decide (get_latest_version_tag (tg n) = none))
            = false := by
          push_neg at hn
          simp [hn.1, hn.2]
        simp [hn, hb]

lemma extra_foldl_fetchedExtra (unv : List String) (tg : String → List String) :
    ∀ (names : List String) (st : RunState),
      (names.foldl (extraStep unv tg) st).fetchedExtra =
        st.fetchedExtra ++ names.filter fun n => !decide (n ∈ unv) := by
  intro names
  induction names with
  | nil => intro st; simp
  | cons n ns ih =>
      intro st
      rw [List.foldl_cons, ih, extraStep_fetchedExtra, List.filter_cons]
      by_cases hn : n ∈ unv <;> simp [hn]

lemma extra_foldl_fetchedPrimary (unv : List String) (tg : String → List String) :
    ∀ (names : List String) (st : RunState),
      (names.foldl (extraStep unv tg) st).fetchedPrimary = st.fetchedPrimary := by
  intro names
  induction names with
  | nil => intro st; rfl
  | cons n ns ih =>
      intro st
      rw [List.foldl_cons, ih, extraStep_fetchedPrimary]

lemma extra_foldl_newUnversioned (unv : List String) (tg : String → List String) :
    ∀ (names : List String) (st : RunState),
      (names.foldl (extraStep unv tg) st).newUnversioned =
        st.newUnversioned ++ names.filter fun n =>
          decide (n ∈ unv) || decide (get_latest_version_tag (tg n) = none) := by
  intro names
  induction names with
  | nil => intro st; simp
  | cons n ns ih =>
      intro st
      rw [List.foldl_cons, ih, extraStep_newUnversioned, List.filter_cons]
      by_cases hn : n ∈ unv ∨ get_latest_version_tag (tg n) = none
      · have hb : (decide (n ∈ unv) || decide (get_latest_version_tag (tg n) = none))
            = true := by
          rcases hn with h | h <;> simp [h]
        simp [hn, hb]
      · have hb : (decide (n ∈ unv) || decide (get_latest_version_tag (tg n) = none))
            = false := by
          push_neg at hn
          simp [hn.1, hn.2]
        simp [hn, hb]

/-- C8: a repository identifier in the loaded unversioned cache (bare name
for a primary-organization repository, full `owner/repo` path for an extra)
is never passed to the tag fetcher by the corresponding loop, and every
cached identifier that is encountered this run (as a listed repository name
or a configured extra path) reappears in the newly written unversioned set;
that set is rebuilt fresh — each member is an identifier processed this run
that was either skipped via the cache or freshly found unversioned. -/
theorem cache_skip_and_rebuild (repoNames extraRepos unversioned : List String)
    (tagsPrimary tagsExtra : String → List String) :
    (∀ x ∈ unversioned,
      x ∉ (runMain repoNames extraRepos unversioned tagsPrimary
            tagsExtra).fetchedPrimary ∧
      x ∉ (runMain repoNames extraRepos unversioned tagsPrimary
            tagsExtra).fetchedExtra) ∧
    (∀ x ∈ unversioned, (x ∈ repoNames ∨ x ∈ extraRepos) →
      x ∈ (runMain repoNames extraRepos unversioned tagsPrimary
            tagsExtra).newUnversioned) ∧
    (∀ x ∈ (runMain repoNames extraRepos unversioned tagsPrimary
          tagsExtra).newUnversioned,
      (x ∈ repoNames ∧
        (x ∈ unversioned ∨ get_latest_version_tag (tagsPrimary x) = none)) ∨
      (x ∈ extraRepos ∧
        (x ∈ unversioned ∨ get_latest_version_tag (tagsExtra x) = none))) := by
  have hfp : (runMain repoNames extraRepos unversioned tagsPrimary
      tagsExtra).fetchedPrimary =
      repoNames.filter fun n => !decide (n ∈ unversioned) := by
    unfold runMain
    rw [extra_foldl_fetchedPrimary, primary_foldl_fetchedPrimary]
    rfl
  have hfe : (runMain repoNames extraRepos unversioned tagsPrimary
      tagsExtra).fetchedExtra =
      extraRepos.filter fun n => !decide (n ∈ unversioned) := by
    unfold runMain
    rw [extra_foldl_fetchedExtra, primary_foldl_fetchedExtra]
    rfl
  have hnu : (runMain repoNames extraRepos unversioned tagsPrimary
      tagsExtra).newUnversioned =
      (repoNames.filter fun n =>
        decide (n ∈ unversioned) ||
          decide (get_latest_version_tag (tagsPrimary n) = none)) ++
      (extraRepos.filter fun n =>
        decide (n ∈ unversioned) ||
          decide (get_latest_version_tag (tagsExtra n) = none)) := by
    unfold runMain
    rw [extra_foldl_newUnversioned, primary_foldl_newUnversioned]
    rfl
  refine ⟨fun x hx => ⟨?_, ?_⟩, fun x hx hmem => ?_, fun x hx => ?_⟩
  · rw [hfp]
    intro hmem
    have := (List.mem_filter.mp hmem).2
    simp [hx] at this
  · rw [hfe]
    intro hmem
    have := (List.mem_filter.mp hmem).2
    simp [hx] at this
  · rw [hnu]
    rcases hmem with hr | he
    · exact List.mem_append_left _ (List.mem_filter.mpr ⟨hr, by simp [hx]⟩)
    · exact List.mem_append_right _ (List.mem_filter.mpr ⟨he, by simp [hx]⟩)
  · rw [hnu] at hx
    rcases List.mem_append.mp hx with hm | hm
    · left
      obtain ⟨hmem, hcond⟩ := List.mem_filter.mp hm
      refine ⟨hmem, ?_⟩
      simpa using hcond
    · right
      obtain ⟨hmem, hcond⟩ := List.mem_filter.mp hm
      refine ⟨hmem, ?_⟩
      simpa using hcond

/-- Witness for C8: `"cached"` (primary, cached) and `"org/cold"` (extra,
cached) are skipped and re-cached; `"fresh"` (tags `["v1"]`) is fetched and
versioned; `"bare"` (no matching tags) enters the new unversioned set. -/
theorem cache_skip_and_rebuild_witness :
    ("cached" ∉ (runMain ["cached", "fresh", "bare"] ["org/cold"]
        ["cached", "org/cold"] (fun n => if n = "fresh" then ["v1"] else ["x"])
        (fun _ => [])).fetchedPrimary ∧
      "cached" ∉ (runMain ["cached", "fresh", "bare"] ["org/cold"]
        ["cached", "org/cold"] (fun n => if n = "fresh" then ["v1"] else ["x"])
        (fun _ => [])).fetchedExtra) ∧
    "org/cold" ∈ (runMain ["cached", "fresh", "bare"] ["org/cold"]
        ["cached", "org/cold"] (fun n => if n = "fresh" then ["v1"] else ["x"])
        (fun _ => [])).newUnversioned ∧
    (("bare" ∈ (["cached", "fresh", "bare"] : List String) ∧
        ("bare" ∈ (["cached", "org/cold"] : List String) ∨
          get_latest_version_tag ((fun n =>
            if n = "fresh" then ["v1"] else ["x"]) "bare") = none)) ∨
      ("bare" ∈ (["org/cold"] : List String) ∧
        ("bare" ∈ (["cached", "org/cold"] : List String) ∨
          get_latest_version_tag ((fun _ => ([] : List String)) "bare") = none))) :=
  ⟨(cache_skip_and_rebuild ["cached", "fresh", "bare"] ["org/cold"]
      ["cached", "org/cold"] (fun n => if n = "fresh" then ["v1"] else ["x"])
      (fun _ => [])).1 "cached" (by decide),
   (cache_skip_and_rebuild ["cached", "fresh", "bare"] ["org/cold"]
      ["cached", "org/cold"] (fun n => if n = "fresh" then ["v1"] else ["x"])
      (fun _ => [])).2.1 "org/cold" (by decide) (Or.inr (by decide)),
   (cache_skip_and_rebuild ["cached", "fresh", "bare"] ["org/cold"]
      ["cached", "org/cold"] (fun n => if n = "fresh" then ["v1"] else ["x"])
      (fun _ => [])).2.2 "bare" (by decide)⟩

end FetchVersions
